import Mathlib

/-!
Verification of the FuzzyLibrary Mamdani fuzzy-inference engine (fzzlib.c).

The C code is shallowly embedded here.  Machine doubles are modelled as
rationals (`ℚ`): every arithmetic operation the pipeline performs
(comparison, subtraction, multiplication, division, accumulation) is exact
on the inputs the claims quantify over, and the integration step constant
`COG_STEP = 0.02` is modelled as the exact rational `1/50`.  The C global
`fzzSystem` structure becomes an explicit `TFzzSystem` value; the global
transient tables `fzfOut` / `infOut` become values threaded through the
evaluation pipeline.  `fzz_calculateOutput` resets the `length` field of
every transient table to 0 before refilling it, which makes the previous
cycle entries unreadable (every C read is bounded by `length`), so the
reset is modelled by starting from fresh lists.  C `assert` failures in
the rule machinery are modelled as `Except.error`.  Fixed capacities
(`MAX_INPUTS`, `MAX_FSETS`, `WBUF_LENGTH`, ...) guard against buffer
overflow in C and are not otherwise semantically relevant, so lists are
unbounded here; name strings are kept whole rather than truncated to
`NAME_LENGTH`.
-/

set_option maxRecDepth 4000

attribute [local semireducible] Rat.mul Rat.inv Rat.add Rat.sub

instance {ε α : Type} [DecidableEq ε] [DecidableEq α] : DecidableEq (Except ε α) := fun x y =>
  match x, y with
  | .ok a, .ok b =>
    match decEq a b with
    | isTrue h => isTrue (h ▸ rfl)
    | isFalse h => isFalse fun hh => h (Except.ok.inj hh)
  | .error a, .error b =>
    match decEq a b with
    | isTrue h => isTrue (h ▸ rfl)
    | isFalse h => isFalse fun hh => h (Except.error.inj hh)
  | .ok _, .error _ => isFalse nofun
  | .error _, .ok _ => isFalse nofun

/-- Fuzzy set with triangular membership function (C struct `TFuzzySet`). -/
structure TFuzzySet where
  left : ℚ
  top : ℚ
  right : ℚ
  name : String
deriving DecidableEq, Repr

instance : Inhabited TFuzzySet := ⟨⟨0, 0, 0, ""⟩⟩

/-- Set of input or output fuzzy sets (C struct `TFcnsSet`); the C `length`
field is the list length. -/
structure TFcnsSet where
  fSet : List TFuzzySet
  name : String
deriving DecidableEq, Repr

instance : Inhabited TFcnsSet := ⟨⟨[], ""⟩⟩

/-- Fuzzy system data structure (C struct `TFzzSystem`); `inLen`, `outLen`
and `ruLen` are the list lengths. -/
structure TFzzSystem where
  inSet : List TFcnsSet
  outSet : List TFcnsSet
  input : List ℚ
  output : List ℚ
  rules : List String
deriving DecidableEq, Repr

/-- Result of fuzzification for one fuzzy set (C struct `TFuzzifyRes`). -/
structure TFuzzifyRes where
  membership : ℚ
  setIndex : ℕ
deriving DecidableEq, Repr

/-- Result of inference of one matching rule (C struct `TInfRes`). -/
structure TInfRes where
  value : ℚ
  fSet : ℕ
deriving DecidableEq, Repr

/-- The triangular membership degree as computed inline by `fzz_fuzzify`
(fzzlib.c lines 362-378) and `fzz_outputValue` (lines 594-618): the two
`continue` guards return 0 outside the open support, then the left or the
right ramp is evaluated. -/
def membership (f : TFuzzySet) (x : ℚ) : ℚ :=
  if x ≤ f.left then 0
  else if f.right ≤ x then 0
  else if x ≤ f.top then 1 / (f.top - f.left) * (x - f.left)
  else 1 / (f.top - f.right) * (x - f.top) + 1

/-- The divisor of the division performed by the membership evaluation,
when one is performed: the branch `x <= top` divides by `top - left`,
the other branch divides by `top - right`; the guard branches divide
nothing. -/
def fzz_membDivisor (f : TFuzzySet) (x : ℚ) : Option ℚ :=
  if x ≤ f.left then none
  else if f.right ≤ x then none
  else if x ≤ f.top then some (f.top - f.left)
  else some (f.top - f.right)

/-- Loop body of `fzz_fuzzify` (fzzlib.c lines 358-393): scan the fuzzy sets
of one input starting at set index `i`, skipping sets whose open support
does not contain the input value, and appending a `TFuzzifyRes` for the
others. -/
def fzz_fuzzifyFrom (x : ℚ) : ℕ → List TFuzzySet → List TFuzzifyRes
  | _, [] => []
  | i, f :: fs =>
    if x ≤ f.left then fzz_fuzzifyFrom x (i + 1) fs
    else if f.right ≤ x then fzz_fuzzifyFrom x (i + 1) fs
    else if x ≤ f.top then
      ⟨1 / (f.top - f.left) * (x - f.left), i⟩ :: fzz_fuzzifyFrom x (i + 1) fs
    else
      ⟨1 / (f.top - f.right) * (x - f.top) + 1, i⟩ :: fzz_fuzzifyFrom x (i + 1) fs

/-- `fzz_fuzzify` for one input: the C function reads
`fzzSystem.inSet[in].fSet` and `fzzSystem.input[in]` and fills
`fzfOut[in]`. -/
def fzz_fuzzify (sets : List TFuzzySet) (x : ℚ) : List TFuzzifyRes :=
  fzz_fuzzifyFrom x 0 sets

/-- The fuzzification pass of `fzz_calculateOutput` (lines 673-676): the
transient table of each input is reset and refilled. -/
def fuzzifyAll (ins : List TFcnsSet) (input : List ℚ) : List (List TFuzzifyRes) :=
  (List.range ins.length).map fun i => fzz_fuzzify ((ins.getD i default).fSet) (input.getD i 0)

/-- In the C code `fzz_calculateOutput` sets `fzfOut[i].length = 0` before
calling `fzz_fuzzify(i)`, so the new cycle result is built from scratch
and the previous cycle result is discarded unread. -/
def fzz_fuzzifyCycle (_prev : List (List TFuzzifyRes)) (ins : List TFcnsSet)
    (input : List ℚ) : List (List TFuzzifyRes) :=
  fuzzifyAll ins input

/-- `fzz_inputIndex` (lines 288-297): first input set whose name matches. -/
def fzz_inputIndex (ins : List TFcnsSet) (name : String) : Option ℕ :=
  ins.findIdx? fun s => s.name == name

/-- `fzz_outputIndex` (lines 305-314). -/
def fzz_outputIndex (outs : List TFcnsSet) (name : String) : Option ℕ :=
  outs.findIdx? fun s => s.name == name

/-- `fzz_inputFSetIndex` (lines 323-332): first fuzzy set of input `idx`
whose name matches. -/
def fzz_inputFSetIndex (ins : List TFcnsSet) (idx : ℕ) (name : String) : Option ℕ :=
  (ins.getD idx default).fSet.findIdx? fun f => f.name == name

/-- `fzz_outputFSetIndex` (lines 341-350). -/
def fzz_outputFSetIndex (outs : List TFcnsSet) (idx : ℕ) (name : String) : Option ℕ :=
  (outs.getD idx default).fSet.findIdx? fun f => f.name == name

/-- Parsing result of one rule: the C arrays `inputs[]` / `inSets[]` up to
`inLen` become the list `ants` of (input index, fuzzy set index) pairs,
with `output` / `outSet` for the consequent. -/
structure ParsedRule where
  ants : List (ℕ × ℕ)
  output : ℕ
  outSet : ℕ
deriving DecidableEq, Repr

/-- Running state of the rule state machine of `fzz_ininference`
(lines 400-538): current state number, word buffer, completed antecedent
pairs, the provisional `inputs[inLen]` slot written in state 1 and read in
state 3, and the consequent output index. -/
structure PRun where
  state : ℕ
  wbuf : List Char
  ants : List (ℕ × ℕ)
  curIn : ℕ
  output : ℕ
deriving DecidableEq, Repr

/-- One character step of the rule state machine (the `switch` of
lines 423-530).  Each C `assert` becomes an error.  States 0-6 accumulate
characters until a space; state 7 (and the unreachable default) accumulates
every character to the end of the string. -/
def fzz_pstep (ins outs : List TFcnsSet) (st : PRun) (c : Char) : Except String PRun :=
  match st.state with
  | 0 =>
    if c = ' ' then
      if String.mk st.wbuf = "if" then .ok { st with wbuf := [], state := 1 }
      else .error "expecting keyword if at the beginning of rule"
    else .ok { st with wbuf := st.wbuf ++ [c] }
  | 1 =>
    if c = ' ' then
      match fzz_inputIndex ins (String.mk st.wbuf) with
      | some v => .ok { st with wbuf := [], curIn := v, state := 2 }
      | none => .error "input name not found"
    else .ok { st with wbuf := st.wbuf ++ [c] }
  | 2 =>
    if c = ' ' then
      if String.mk st.wbuf = "is" then .ok { st with wbuf := [], state := 3 }
      else .error "expecting keyword is after input name"
    else .ok { st with wbuf := st.wbuf ++ [c] }
  | 3 =>
    if c = ' ' then
      match fzz_inputFSetIndex ins st.curIn (String.mk st.wbuf) with
      | some v =>
        .ok { st with wbuf := [], ants := st.ants ++ [(st.curIn, v)], state := 4 }
      | none => .error "input fuzzy set name not found"
    else .ok { st with wbuf := st.wbuf ++ [c] }
  | 4 =>
    if c = ' ' then
      if String.mk st.wbuf = "and" then .ok { st with wbuf := [], state := 1 }
      else if String.mk st.wbuf = "then" then .ok { st with wbuf := [], state := 5 }
      else .error "expecting keyword and or then after input fuzzy set name"
    else .ok { st with wbuf := st.wbuf ++ [c] }
  | 5 =>
    if c = ' ' then
      match fzz_outputIndex outs (String.mk st.wbuf) with
      | some o => .ok { st with wbuf := [], output := o, state := 6 }
      | none => .error "output name not found"
    else .ok { st with wbuf := st.wbuf ++ [c] }
  | 6 =>
    if c = ' ' then
      if String.mk st.wbuf = "is" then .ok { st with wbuf := [], state := 7 }
      else .error "expecting keyword is after output name"
    else .ok { st with wbuf := st.wbuf ++ [c] }
  | _ => .ok { st with wbuf := st.wbuf ++ [c] }

/-- The `while` loop of `fzz_ininference`: run the state machine over the
remaining characters of the rule string. -/
def fzz_parseRun (ins outs : List TFcnsSet) : List Char → PRun → Except String PRun
  | [], st => .ok st
  | c :: cs, st =>
    match fzz_pstep ins outs st c with
    | .ok st2 => fzz_parseRun ins outs cs st2
    | .error e => .error e

/-- Initial machine state: `state = 0`, empty buffer, no parsed pairs,
`output = 0` (C local initialization). -/
def pInit : PRun := ⟨0, [], [], 0, 0⟩

/-- The parsing part of `fzz_ininference` (lines 423-538): run the machine
over the rule text, then resolve the final word buffer as the consequent
fuzzy set name (lines 534-536).  Note that the final lookup happens in
whatever state the machine stopped, against the output index resolved so
far (0 if none was). -/
def fzz_parseRule (ins outs : List TFcnsSet) (text : String) : Except String ParsedRule :=
  match fzz_parseRun ins outs text.data pInit with
  | .error e => .error e
  | .ok st =>
    match fzz_outputFSetIndex outs st.output (String.mk st.wbuf) with
    | some os => .ok ⟨st.ants, st.output, os⟩
    | none => .error "output fuzzy set name not found"

/-- Innermost loop of the rule evaluation (lines 548-557): scan one input
fuzzification result for records matching fuzzy set index `t`, counting
matches and tracking the minimum membership (the first match initializes
the minimum when the running match count is 0). -/
def fzz_evalScan (l : List TFuzzifyRes) (t : ℕ) (acc : ℕ × ℚ) : ℕ × ℚ :=
  l.foldl
    (fun a r =>
      if r.setIndex == t then
        (a.1 + 1,
          if a.1 = 0 then r.membership
          else if r.membership < a.2 then r.membership else a.2)
      else a)
    acc

/-- Evaluation of a parsed rule (lines 540-561): for every system input `i`
find the first parsed antecedent pair naming input `i` (the inner `j` loop
with its `break`), and scan that input fuzzification result for its fuzzy
set.  Returns the final (match count, running minimum) pair. -/
def fzz_evalRule (numIn : ℕ) (fzf : List (List TFuzzifyRes)) (ants : List (ℕ × ℕ)) : ℕ × ℚ :=
  (List.range numIn).foldl
    (fun a i =>
      match ants.find? (fun c => c.1 == i) with
      | some c => fzz_evalScan (fzf.getD i []) c.2 a
      | none => a)
    (0, 0)

/-- `fzz_ininference` (lines 400-579): parse the rule, evaluate it against
the fuzzification results, and append an inference record for the
consequent output exactly when the match count equals the number of parsed
antecedent pairs (lines 564-578). -/
def fzz_ininference (ins outs : List TFcnsSet) (fzf : List (List TFuzzifyRes))
    (inf : List (List TInfRes)) (text : String) : Except String (List (List TInfRes)) :=
  match fzz_parseRule ins outs text with
  | .error e => .error e
  | .ok r =>
    let mv := fzz_evalRule ins.length fzf r.ants
    if mv.1 = r.ants.length then
      .ok (inf.set r.output ((inf.getD r.output []) ++ [⟨mv.2, r.outSet⟩]))
    else .ok inf

/-- Size of the integration step during defuzzification (`COG_STEP`,
fzzlib.c line 85); the C literal 0.02 is the exact rational 1/50 here. -/
def COG_STEP : ℚ := 1 / 50

/-- The largest finite double (`DBL_MAX` of float.h), used by
`fzz_defuzzify` to initialize the integration range search; the value is
the integer (2 to the 53rd minus 1) times 2 to the 971st, written as a
literal so that kernel evaluation never unfolds a 971-step power. -/
def DBL_MAX : ℚ := 179769313486231570814527423731704356798070567525844996598917476803157260780028538760589558632766878171540458953514382464234321326889464182768467546703537516986049910576551282076245490090389328944075868508455133942304583236903222948165808559332123348274797826204144723168738177180919299881250404026184124858368

/-- Range search of `fzz_defuzzify`, lower bound (lines 640-647):
fold over the inference records, keeping the smallest `left` endpoint of
any referenced consequent fuzzy set, starting from `DBL_MAX`. -/
def fzz_cogFrom (ov : TFcnsSet) (recs : List TInfRes) : ℚ :=
  recs.foldl
    (fun a r =>
      let l := (ov.fSet.getD r.fSet default).left
      if l < a then l else a)
    DBL_MAX

/-- Range search of `fzz_defuzzify`, upper bound: largest `right`
endpoint, starting from `-DBL_MAX`. -/
def fzz_cogTo (ov : TFcnsSet) (recs : List TInfRes) : ℚ :=
  recs.foldl
    (fun a r =>
      let rt := (ov.fSet.getD r.fSet default).right
      if a < rt then rt else a)
    (-DBL_MAX)

/-- `fzz_outputValue` (lines 585-623): value of the aggregated output
surface at `x`.  For every inference record whose consequent fuzzy set
support contains `x`, the membership is computed by the same two-ramp
code as `fzz_fuzzify`, clipped at the record firing strength, and the
running maximum (initially 0) is updated. -/
def fzz_outputValue (ov : TFcnsSet) (recs : List TInfRes) (x : ℚ) : ℚ :=
  recs.foldl
    (fun mx r =>
      let f := ov.fSet.getD r.fSet default
      if x ≤ f.left then mx
      else if f.right ≤ x then mx
      else if x ≤ f.top then
        let memb := 1 / (f.top - f.left) * (x - f.left)
        let memb2 := if r.value < memb then r.value else memb
        if mx < memb2 then memb2 else mx
      else
        let memb := 1 / (f.top - f.right) * (x - f.top) + 1
        let memb2 := if r.value < memb then r.value else memb
        if mx < memb2 then memb2 else mx)
    0

/-- Number of iterations of the integration loop
`for(x = from; x < to+COG_STEP; x += COG_STEP)` of `fzz_defuzzify`
(lines 653-658): the iterates are `from + n*COG_STEP` and the loop runs
exactly while `from + n*COG_STEP < to + COG_STEP` (theorem
`cogN_loopCond` below). -/
def fzz_cogN (f t : ℚ) : ℕ :=
  (Int.ceil ((t + COG_STEP - f) / COG_STEP)).toNat

/-- The integration loop of `fzz_defuzzify` run for `n` iterations,
accumulating the numerator and the denominator of the center of
gravity. -/
def fzz_cogLoop (V : ℚ → ℚ) (f : ℚ) : ℕ → ℚ × ℚ
  | 0 => (0, 0)
  | n + 1 =>
    let p := fzz_cogLoop V f n
    let x := f + n * COG_STEP
    (p.1 + x * V x, p.2 + V x)

/-- `fzz_defuzzify` (lines 630-662): compute the integration range over
the referenced consequent supports, run the integration loop, and return
numerator / denominator.  When no inference record exists the loop runs
zero times and the division is 0/0 (a NaN in C, the ℚ junk value 0
here). -/
def fzz_defuzzify (ov : TFcnsSet) (recs : List TInfRes) : ℚ :=
  let f := fzz_cogFrom ov recs
  let t := fzz_cogTo ov recs
  let p := fzz_cogLoop (fzz_outputValue ov recs) f (fzz_cogN f t)
  p.1 / p.2

/-- The three stages of `fzz_calculateOutput` (lines 664-695) producing
the new output list: fuzzify every input, reset the inference tables and
run every rule through `fzz_ininference`, then defuzzify every output. -/
def fzz_pipeline (sys : TFzzSystem) : Except String (List ℚ) :=
  let fzf := fuzzifyAll sys.inSet sys.input
  match sys.rules.foldlM
      (fun acc text => fzz_ininference sys.inSet sys.outSet fzf acc text)
      (List.replicate sys.outSet.length ([] : List TInfRes)) with
  | .error e => .error e
  | .ok inf =>
    .ok ((List.range sys.outSet.length).map fun o =>
      fzz_defuzzify (sys.outSet.getD o default) (inf.getD o []))

/-- `fzz_calculateOutput`: run the pipeline and store the computed crisp
values in the output field. -/
def fzz_calculateOutput (sys : TFzzSystem) : Except String TFzzSystem :=
  match fzz_pipeline sys with
  | .ok out => .ok { sys with output := out }
  | .error e => .error e

/-!  Spec-side definitions, used only to state refinement claims; these
follow the wording of the specification, not the C code. -/

/-- Follows the spec wording of §4.4 step 2: the aggregated surface value
at `x` is the maximum over inference records of the consequent membership
clipped at the firing strength (`max` folded over the clipped values,
starting from 0). -/
def spec_outputValue (ov : TFcnsSet) (recs : List TInfRes) (x : ℚ) : ℚ :=
  (recs.map fun r => min (membership (ov.fSet.getD r.fSet default) x) r.value).foldl max 0

/-- Follows the spec grammar wording of §4.2:
`if VAR is TERM (and VAR is TERM)* then VAR is TERM`, tokens delimited by
single spaces, every name resolved by exact match, the terminal output
term delimited by end-of-string (hence rebuilt by re-joining the
remaining space-separated tokens). -/
def spec_checkRule (ins outs : List TFcnsSet) : List (List Char) → Bool
  | v :: i1 :: t :: k :: rest =>
    match fzz_inputIndex ins (String.mk v) with
    | none => false
    | some vi =>
      (String.mk i1 == "is") && (fzz_inputFSetIndex ins vi (String.mk t)).isSome &&
      (if String.mk k == "and" then spec_checkRule ins outs rest
       else if String.mk k == "then" then
         match rest with
         | ov :: i2 :: rest2 =>
           (String.mk i2 == "is") &&
           (match fzz_outputIndex outs (String.mk ov) with
            | none => false
            | some oi =>
              (fzz_outputFSetIndex outs oi
                (String.mk (List.intercalate [' '] rest2))).isSome)
         | _ => false
       else false)
  | _ => false

/-- A rule text conforms to the spec grammar of §4.2 if its space-separated
token list is `if` followed by antecedent clauses and a consequent
clause. -/
def spec_ruleConforms (ins outs : List TFcnsSet) (text : String) : Bool :=
  match text.data.splitOn ' ' with
  | tif :: rest => (String.mk tif == "if") && spec_checkRule ins outs rest
  | _ => false

/-- A parsed antecedent pair is present in the fuzzification results when
that input result contains a record for its fuzzy set index. -/
def fzzPresent (fzf : List (List TFuzzifyRes)) (c : ℕ × ℕ) : Prop :=
  ∃ r ∈ fzf.getD c.1 [], r.setIndex = c.2

instance (fzf : List (List TFuzzifyRes)) (c : ℕ × ℕ) : Decidable (fzzPresent fzf c) := by
  unfold fzzPresent; infer_instance

/-- The membership degree recorded for a parsed antecedent pair (0 when
the pair is absent; when the fuzzification result has no duplicate set
indices this is the degree of the unique matching record). -/
def fzzDegree (fzf : List (List TFuzzifyRes)) (c : ℕ × ℕ) : ℚ :=
  match (fzf.getD c.1 []).find? (fun r => r.setIndex == c.2) with
  | some r => r.membership
  | none => 0

/-!  Concrete example systems, used to instantiate the theorems below. -/

/-- One input `x` with term `negative`, one output `y` with term `zero`
(the variables of the malformed-rule test of §8.7 of the spec). -/
def sysXY : TFzzSystem :=
  { inSet := [⟨[⟨-2, -1, 0, "negative"⟩], "x"⟩]
    outSet := [⟨[⟨-1, 0, 1, "zero"⟩], "y"⟩]
    input := [0]
    output := [0]
    rules := [] }

/-- One input `x` with term `a` currently at degree 1, one output `y` with
term `b` whose support is two integration steps wide. -/
def sysDup : TFzzSystem :=
  { inSet := [⟨[⟨0, 1, 2, "a"⟩], "x"⟩]
    outSet := [⟨[⟨0, 1 / 50, 2 / 50, "b"⟩], "y"⟩]
    input := [1]
    output := [0]
    rules := ["if x is a and x is a then y is b"] }

/-- Two inputs `x` (term `a`, degree 1/2) and `z` (term `c`, degree 1/4),
one output `y` with term `b`. -/
def sysTwo : TFzzSystem :=
  { inSet := [⟨[⟨0, 1, 2, "a"⟩], "x"⟩, ⟨[⟨0, 1, 2, "c"⟩], "z"⟩]
    outSet := [⟨[⟨0, 1 / 50, 2 / 50, "b"⟩], "y"⟩]
    input := [1 / 2, 7 / 4]
    output := [0]
    rules := ["if x is a and z is c then y is b"] }

/-- One input `x` whose current value 10 lies outside the support of its
only term, so no rule fires; the previous output value is 5. -/
def sysE : TFzzSystem :=
  { inSet := [⟨[⟨0, 1, 2, "a"⟩], "x"⟩]
    outSet := [⟨[⟨0, 1 / 50, 2 / 50, "b"⟩], "y"⟩]
    input := [10]
    output := [5]
    rules := ["if x is a then y is b"] }

/-- A well-formed one-rule system whose evaluation succeeds. -/
def sysW : TFzzSystem :=
  { inSet := [⟨[⟨0, 1, 2, "a"⟩], "x"⟩]
    outSet := [⟨[⟨0, 1 / 50, 2 / 50, "b"⟩], "y"⟩]
    input := [1]
    output := [0]
    rules := ["if x is a then y is b"] }

/-!  Helper lemmas about fuzzification. -/

theorem fuzzifyFrom_eq_filterMap (x : ℚ) :
    ∀ (sets : List TFuzzySet) (i : ℕ),
      fzz_fuzzifyFrom x i sets =
        ((List.enumFrom i sets).filter fun p => decide (p.2.left < x ∧ x < p.2.right)).map
          fun p => ⟨membership p.2 x, p.1⟩
  | [], _ => rfl
  | f :: fs, i => by
    have ih := fuzzifyFrom_eq_filterMap x fs (i + 1)
    by_cases h1 : x ≤ f.left
    · have hcond : ¬(f.left < x ∧ x < f.right) := fun hc => absurd h1 (not_le.mpr hc.1)
      simp only [fzz_fuzzifyFrom, if_pos h1, List.enumFrom, List.filter_cons,
        decide_eq_true_eq]
      rw [if_neg (by simpa using hcond)]
      exact ih
    · by_cases h2 : f.right ≤ x
      · have hcond : ¬(f.left < x ∧ x < f.right) := fun hc => absurd h2 (not_le.mpr hc.2)
        simp only [fzz_fuzzifyFrom, if_neg h1, if_pos h2, List.enumFrom, List.filter_cons,
          decide_eq_true_eq]
        rw [if_neg (by simpa using hcond)]
        exact ih
      · have hcond : f.left < x ∧ x < f.right := ⟨not_le.mp h1, not_le.mp h2⟩
        by_cases h3 : x ≤ f.top
        · simp only [fzz_fuzzifyFrom, if_neg h1, if_neg h2, if_pos h3, List.enumFrom,
            List.filter_cons, decide_eq_true_eq]
          rw [if_pos (by simpa using hcond), List.map_cons]
          refine congrArg₂ _ ?_ ih
          simp only [membership, if_neg h1, if_neg h2, if_pos h3]
        · simp only [fzz_fuzzifyFrom, if_neg h1, if_neg h2, if_neg h3, List.enumFrom,
            List.filter_cons, decide_eq_true_eq]
          rw [if_pos (by simpa using hcond), List.map_cons]
          refine congrArg₂ _ ?_ ih
          simp only [membership, if_neg h1, if_neg h2, if_neg h3]

theorem fuzzifyFrom_idx_ge (x : ℚ) :
    ∀ (sets : List TFuzzySet) (i : ℕ) (r : TFuzzifyRes),
      r ∈ fzz_fuzzifyFrom x i sets → i ≤ r.setIndex
  | [], _, _, h => absurd h (List.not_mem_nil _)
  | f :: fs, i, r, h => by
    have step : ∀ s ∈ fzz_fuzzifyFrom x (i + 1) fs, i ≤ s.setIndex := fun s hs =>
      le_of_lt (Nat.lt_of_lt_of_le (Nat.lt_succ_self i) (fuzzifyFrom_idx_ge x fs (i + 1) s hs))
    unfold fzz_fuzzifyFrom at h
    split_ifs at h with h1 h2 h3
    · exact step r h
    · exact step r h
    · rcases List.mem_cons.mp h with hh | hh
      · exact hh ▸ le_refl i
      · exact step r hh
    · rcases List.mem_cons.mp h with hh | hh
      · exact hh ▸ le_refl i
      · exact step r hh

theorem fuzzifyFrom_pairwise (x : ℚ) :
    ∀ (sets : List TFuzzySet) (i : ℕ),
      List.Pairwise (fun a b => a.setIndex < b.setIndex) (fzz_fuzzifyFrom x i sets)
  | [], _ => List.Pairwise.nil
  | f :: fs, i => by
    have ih := fuzzifyFrom_pairwise x fs (i + 1)
    have hd : ∀ s ∈ fzz_fuzzifyFrom x (i + 1) fs, i < s.setIndex := fun s hs =>
      Nat.lt_of_lt_of_le (Nat.lt_succ_self i) (fuzzifyFrom_idx_ge x fs (i + 1) s hs)
    unfold fzz_fuzzifyFrom
    split_ifs with h1 h2 h3
    · exact ih
    · exact ih
    · exact List.Pairwise.cons hd ih
    · exact List.Pairwise.cons hd ih

/-- The set indices of one fuzzification result are strictly increasing,
hence without duplicates. -/
theorem fuzzify_nodup_setIndex (sets : List TFuzzySet) (x : ℚ) :
    ((fzz_fuzzify sets x).map TFuzzifyRes.setIndex).Nodup := by
  have h := fuzzifyFrom_pairwise x sets 0
  have h2 : List.Pairwise (fun a b : TFuzzifyRes => a.setIndex ≠ b.setIndex)
      (fzz_fuzzify sets x) := h.imp fun hab => Nat.ne_of_lt hab
  exact (List.pairwise_map).mpr h2

theorem fuzzifyAll_nodup (ins : List TFcnsSet) (input : List ℚ) :
    ∀ l ∈ fuzzifyAll ins input, (l.map TFuzzifyRes.setIndex).Nodup := by
  intro l hl
  rcases List.mem_map.mp hl with ⟨i, _, rfl⟩
  exact fuzzify_nodup_setIndex _ _

/-- C1: for a membership function with left ≤ top ≤ right, the degree
computed by the pipeline is 0 at and outside the support endpoints, the
rising ramp (x - left) / (top - left) on the left part of the open
support, the falling ramp (x - top) / (top - right) + 1 on the right
part, and exactly 1 at the apex of a non-degenerate function. -/
theorem claim_C1 (f : TFuzzySet) (x : ℚ) (h1 : f.left ≤ f.top) (h2 : f.top ≤ f.right) :
    ((x ≤ f.left ∨ f.right ≤ x) → membership f x = 0) ∧
    (f.left < x → x ≤ f.top → x < f.right →
      membership f x = (x - f.left) / (f.top - f.left)) ∧
    (f.top < x → x < f.right →
      membership f x = (x - f.top) / (f.top - f.right) + 1) ∧
    (f.left < f.top → f.top < f.right → membership f f.top = 1) := by
  refine ⟨?_, ?_, ?_, ?_⟩
  · rintro (h | h)
    · rw [membership, if_pos h]
    · by_cases hl : x ≤ f.left
      · rw [membership, if_pos hl]
      · rw [membership, if_neg hl, if_pos h]
  · intro ha hb hc
    rw [membership, if_neg (not_le.mpr ha), if_neg (not_le.mpr hc), if_pos hb,
      one_div, mul_comm, ← div_eq_mul_inv]
  · intro ha hb
    rw [membership, if_neg (not_le.mpr (lt_of_le_of_lt h1 ha)),
      if_neg (not_le.mpr hb), if_neg (not_le.mpr ha),
      one_div, mul_comm (f.top - f.right)⁻¹, ← div_eq_mul_inv]
  · intro ha hb
    rw [membership, if_neg (not_le.mpr ha), if_neg (not_le.mpr hb), if_pos (le_refl f.top),
      one_div_mul_cancel (sub_ne_zero.mpr (ne_of_gt ha))]

theorem claim_C1_wit :
    membership ⟨-1, 0, 1, "zero"⟩ (-1 / 2 : ℚ) = ((-1 / 2 : ℚ) - -1) / (0 - -1) ∧
    membership ⟨-1, 0, 1, "zero"⟩ (0 : ℚ) = 1 :=
  ⟨(claim_C1 ⟨-1, 0, 1, "zero"⟩ (-1 / 2) (by decide) (by decide)).2.1
      (by decide) (by decide) (by decide),
   (claim_C1 ⟨-1, 0, 1, "zero"⟩ 0 (by decide) (by decide)).2.2.2 (by decide) (by decide)⟩

/-- C4: the fuzzification result of one input contains exactly the terms
whose open support contains the input value, in increasing term-index
order, each paired with its membership degree; and the per-cycle result
is rebuilt from scratch, independent of the previous cycle result. -/
theorem claim_C4 (sets : List TFuzzySet) (x : ℚ) :
    fzz_fuzzify sets x =
      ((List.enum sets).filter fun p => decide (p.2.left < x ∧ x < p.2.right)).map
        (fun p => ⟨membership p.2 x, p.1⟩) ∧
    List.Pairwise (· < ·) ((fzz_fuzzify sets x).map TFuzzifyRes.setIndex) ∧
    ∀ (prev prev2 : List (List TFuzzifyRes)) (ins : List TFcnsSet) (input : List ℚ),
      fzz_fuzzifyCycle prev ins input = fzz_fuzzifyCycle prev2 ins input := by
  refine ⟨fuzzifyFrom_eq_filterMap x sets 0, ?_, fun _ _ _ _ => rfl⟩
  exact (List.pairwise_map).mpr (fuzzifyFrom_pairwise x sets 0)

/-- C8 as stated is false: no division by zero is reachable.  For every
membership function and every value strictly inside the open support, the
branch taken by the membership evaluation has a nonzero divisor, also for
degenerate functions with top = left or top = right. -/
theorem claim_C8_cx :
    ¬ ∃ (f : TFuzzySet) (x : ℚ), (f.top = f.left ∨ f.top = f.right) ∧
      f.left < x ∧ x < f.right ∧ fzz_membDivisor f x = some 0 := by
  rintro ⟨f, x, _, h1, h2, hdiv⟩
  rw [fzz_membDivisor, if_neg (not_le.mpr h1), if_neg (not_le.mpr h2)] at hdiv
  by_cases h3 : x ≤ f.top
  · rw [if_pos h3] at hdiv
    have : f.top = f.left := sub_eq_zero.mp (Option.some.inj hdiv)
    exact absurd (lt_of_lt_of_le h1 (this ▸ h3)) (lt_irrefl f.left)
  · rw [if_neg h3] at hdiv
    have : f.top = f.right := sub_eq_zero.mp (Option.some.inj hdiv)
    exact absurd (lt_trans (not_le.mp h3) h2) (this ▸ lt_irrefl f.top)

/-- C8 amended: whenever the membership evaluation performs a division
(that is, the input value lies strictly inside the open support), the
divisor of the branch taken is nonzero; degenerate functions are routed
to the branch whose divisor does not vanish. -/
theorem claim_C8_amended (f : TFuzzySet) (x : ℚ) (d : ℚ)
    (h : fzz_membDivisor f x = some d) : d ≠ 0 := by
  rw [fzz_membDivisor] at h
  by_cases h1 : x ≤ f.left
  · rw [if_pos h1] at h; cases h
  · by_cases h2 : f.right ≤ x
    · rw [if_neg h1, if_pos h2] at h; cases h
    · by_cases h3 : x ≤ f.top
      · rw [if_neg h1, if_neg h2, if_pos h3] at h
        intro hd
        have : f.top = f.left := sub_eq_zero.mp ((Option.some.inj h) ▸ hd)
        exact h1 (this ▸ h3)
      · rw [if_neg h1, if_neg h2, if_neg h3] at h
        intro hd
        have : f.top = f.right := sub_eq_zero.mp ((Option.some.inj h) ▸ hd)
        exact h3 (le_of_lt (this ▸ not_le.mp h2))

theorem claim_C8_amended_wit :
    fzz_membDivisor ⟨0, 0, 1, "deg"⟩ (1 / 2 : ℚ) = some (-1) ∧ (-1 : ℚ) ≠ 0 :=
  ⟨by decide, claim_C8_amended ⟨0, 0, 1, "deg"⟩ (1 / 2) (-1) (by decide)⟩

/-!  Helper lemmas about the integration loop bound. -/

theorem cogN_loopCond (f t : ℚ) (n : ℕ) :
    n < fzz_cogN f t ↔ f + n * COG_STEP < t + COG_STEP := by
  rw [fzz_cogN, Int.lt_toNat, Int.lt_ceil]
  push_cast
  rw [lt_div_iff (by norm_num [COG_STEP] : (0 : ℚ) < COG_STEP)]
  constructor <;> intro h <;> linarith

theorem cogN_formula (f t : ℚ) (h : f ≤ t) :
    (fzz_cogN f t : ℤ) = Int.ceil ((t - f) / COG_STEP) + 1 := by
  have hs : (0 : ℚ) < COG_STEP := by norm_num [COG_STEP]
  have h1 : (t + COG_STEP - f) / COG_STEP = (t - f) / COG_STEP + 1 := by
    field_simp
    ring
  rw [fzz_cogN, h1, Int.ceil_add_one, Int.toNat_of_nonneg]
  have h2 := Int.ceil_nonneg (div_nonneg (sub_nonneg.mpr h) hs.le)
  omega

theorem cogN_bound (f t : ℚ) (h : f ≤ t) :
    (fzz_cogN f t : ℚ) ≤ (t - f) / COG_STEP + 2 := by
  have h2 := cogN_formula f t h
  have h3 : (Int.ceil ((t - f) / COG_STEP) : ℚ) < (t - f) / COG_STEP + 1 :=
    Int.ceil_lt_add_one _
  have h4 : ((fzz_cogN f t : ℤ) : ℚ) = (Int.ceil ((t - f) / COG_STEP) : ℚ) + 1 := by
    rw [h2]; push_cast; ring
  have h5 : ((fzz_cogN f t : ℤ) : ℚ) = (fzz_cogN f t : ℚ) := by push_cast; ring
  linarith [h5 ▸ h4]

/-!  Helper lemmas about the fold computing the integration range. -/

theorem ite_lt_eq_min (a l : ℚ) : (if l < a then l else a) = min a l := by
  split_ifs with h
  · exact (min_eq_right h.le).symm
  · exact (min_eq_left (not_lt.mp h)).symm

theorem ite_gt_eq_max (a r : ℚ) : (if a < r then r else a) = max a r := by
  split_ifs with h
  · exact (max_eq_right h.le).symm
  · exact (max_eq_left (not_lt.mp h)).symm

theorem foldl_min_spec :
    ∀ (l : List ℚ) (a : ℚ),
      (l.foldl min a = a ∨ l.foldl min a ∈ l) ∧ l.foldl min a ≤ a ∧
        ∀ y ∈ l, l.foldl min a ≤ y
  | [], a => ⟨Or.inl rfl, le_refl a, fun _ hy => absurd hy (List.not_mem_nil _)⟩
  | b :: l, a => by
    have ih := foldl_min_spec l (min a b)
    rw [List.foldl_cons]
    refine ⟨?_, ?_, ?_⟩
    · rcases ih.1 with h | h
      · rcases min_choice a b with hc | hc
        · exact Or.inl (h.trans hc)
        · exact Or.inr (by rw [h, hc]; exact List.mem_cons_self b l)
      · exact Or.inr (List.mem_cons_of_mem b h)
    · exact ih.2.1.trans (min_le_left a b)
    · intro y hy
      rcases List.mem_cons.mp hy with rfl | hy
      · exact ih.2.1.trans (min_le_right a y)
      · exact ih.2.2 y hy

theorem foldl_max_spec :
    ∀ (l : List ℚ) (a : ℚ),
      (l.foldl max a = a ∨ l.foldl max a ∈ l) ∧ a ≤ l.foldl max a ∧
        ∀ y ∈ l, y ≤ l.foldl max a
  | [], a => ⟨Or.inl rfl, le_refl a, fun _ hy => absurd hy (List.not_mem_nil _)⟩
  | b :: l, a => by
    have ih := foldl_max_spec l (max a b)
    rw [List.foldl_cons]
    refine ⟨?_, ?_, ?_⟩
    · rcases ih.1 with h | h
      · rcases max_choice a b with hc | hc
        · exact Or.inl (h.trans hc)
        · exact Or.inr (by rw [h, hc]; exact List.mem_cons_self b l)
      · exact Or.inr (List.mem_cons_of_mem b h)
    · exact (le_max_left a b).trans ih.2.1
    · intro y hy
      rcases List.mem_cons.mp hy with rfl | hy
      · exact (le_max_right a y).trans ih.2.1
      · exact ih.2.2 y hy

theorem foldl_min_mem (l : List ℚ) (a : ℚ) (hne : l ≠ []) (hlt : ∀ y ∈ l, y < a) :
    l.foldl min a ∈ l := by
  rcases (foldl_min_spec l a).1 with h | h
  · rcases List.exists_mem_of_ne_nil l hne with ⟨y, hy⟩
    have := (foldl_min_spec l a).2.2 y hy
    exact absurd (h ▸ this) (not_le.mpr (hlt y hy))
  · exact h

theorem foldl_max_mem (l : List ℚ) (a : ℚ) (hne : l ≠ []) (hlt : ∀ y ∈ l, a < y) :
    l.foldl max a ∈ l := by
  rcases (foldl_max_spec l a).1 with h | h
  · rcases List.exists_mem_of_ne_nil l hne with ⟨y, hy⟩
    have := (foldl_max_spec l a).2.2 y hy
    exact absurd (h ▸ this) (not_le.mpr (hlt y hy))
  · exact h

theorem cogFrom_eq_foldl_min (ov : TFcnsSet) (recs : List TInfRes) :
    fzz_cogFrom ov recs =
      (recs.map fun r => (ov.fSet.getD r.fSet default).left).foldl min DBL_MAX := by
  rw [fzz_cogFrom, List.foldl_map]
  congr 1
  funext a r
  exact ite_lt_eq_min a ((ov.fSet.getD r.fSet default).left)

theorem cogTo_eq_foldl_max (ov : TFcnsSet) (recs : List TInfRes) :
    fzz_cogTo ov recs =
      (recs.map fun r => (ov.fSet.getD r.fSet default).right).foldl max (-DBL_MAX) := by
  rw [fzz_cogTo, List.foldl_map]
  congr 1
  funext a r
  exact ite_gt_eq_max a ((ov.fSet.getD r.fSet default).right)

/-- The integration range endpoints are the minimum left endpoint and the
maximum right endpoint of the referenced consequent supports, provided
the result is non-empty and every endpoint is strictly inside the
double range. -/
theorem cogRange_spec (ov : TFcnsSet) (recs : List TInfRes) (hne : recs ≠ [])
    (hlo : ∀ r ∈ recs, -DBL_MAX < (ov.fSet.getD r.fSet default).left)
    (hhi : ∀ r ∈ recs, (ov.fSet.getD r.fSet default).right < DBL_MAX)
    (hwf : ∀ r ∈ recs, (ov.fSet.getD r.fSet default).left ≤ (ov.fSet.getD r.fSet default).right) :
    (fzz_cogFrom ov recs ∈ recs.map fun r => (ov.fSet.getD r.fSet default).left) ∧
    (∀ y ∈ recs.map fun r => (ov.fSet.getD r.fSet default).left, fzz_cogFrom ov recs ≤ y) ∧
    (fzz_cogTo ov recs ∈ recs.map fun r => (ov.fSet.getD r.fSet default).right) ∧
    (∀ y ∈ recs.map fun r => (ov.fSet.getD r.fSet default).right, y ≤ fzz_cogTo ov recs) ∧
    fzz_cogFrom ov recs ≤ fzz_cogTo ov recs := by
  have hmapne : (recs.map fun r => (ov.fSet.getD r.fSet default).left) ≠ [] := by
    simpa using hne
  have hmapne2 : (recs.map fun r => (ov.fSet.getD r.fSet default).right) ≠ [] := by
    simpa using hne
  have hltm : ∀ y ∈ recs.map fun r => (ov.fSet.getD r.fSet default).left, y < DBL_MAX := by
    intro y hy
    rcases List.mem_map.mp hy with ⟨r, hr, rfl⟩
    exact lt_of_le_of_lt (hwf r hr) (hhi r hr)
  have hgtm : ∀ y ∈ recs.map fun r => (ov.fSet.getD r.fSet default).right, -DBL_MAX < y := by
    intro y hy
    rcases List.mem_map.mp hy with ⟨r, hr, rfl⟩
    exact lt_of_lt_of_le (hlo r hr) (hwf r hr)
  have h1 : fzz_cogFrom ov recs ∈ recs.map fun r => (ov.fSet.getD r.fSet default).left := by
    rw [cogFrom_eq_foldl_min]
    exact foldl_min_mem _ _ hmapne hltm
  have h2 : ∀ y ∈ recs.map fun r => (ov.fSet.getD r.fSet default).left,
      fzz_cogFrom ov recs ≤ y := by
    rw [cogFrom_eq_foldl_min]
    exact (foldl_min_spec _ _).2.2
  have h3 : fzz_cogTo ov recs ∈ recs.map fun r => (ov.fSet.getD r.fSet default).right := by
    rw [cogTo_eq_foldl_max]
    exact foldl_max_mem _ _ hmapne2 hgtm
  have h4 : ∀ y ∈ recs.map fun r => (ov.fSet.getD r.fSet default).right,
      y ≤ fzz_cogTo ov recs := by
    rw [cogTo_eq_foldl_max]
    exact (foldl_max_spec _ _).2.2
  refine ⟨h1, h2, h3, h4, ?_⟩
  rcases List.mem_map.mp h1 with ⟨r, hr, hfr⟩
  calc fzz_cogFrom ov recs = (ov.fSet.getD r.fSet default).left := hfr.symm
    _ ≤ (ov.fSet.getD r.fSet default).right := hwf r hr
    _ ≤ fzz_cogTo ov recs := h4 _ (List.mem_map.mpr ⟨r, hr, rfl⟩)

/-- The consequent set list of `sysW`. -/
def ovW : TFcnsSet := ⟨[⟨0, 1 / 50, 2 / 50, "b"⟩], "y"⟩

/-- C9: for an output with a non-empty inference result over well-formed
consequent supports, the defuzzification integration loop is a
fixed-bound iteration: the iteration count is at most
(to - from) / COG_STEP plus the constant 2, and the loop runs for
exactly the iterations n with from + n * COG_STEP < to + COG_STEP. -/
theorem claim_C9 (ov : TFcnsSet) (recs : List TInfRes) (hne : recs ≠ [])
    (hlo : ∀ r ∈ recs, -DBL_MAX < (ov.fSet.getD r.fSet default).left)
    (hhi : ∀ r ∈ recs, (ov.fSet.getD r.fSet default).right < DBL_MAX)
    (hwf : ∀ r ∈ recs, (ov.fSet.getD r.fSet default).left ≤ (ov.fSet.getD r.fSet default).right) :
    fzz_cogFrom ov recs ≤ fzz_cogTo ov recs ∧
    (fzz_cogN (fzz_cogFrom ov recs) (fzz_cogTo ov recs) : ℚ) ≤
      (fzz_cogTo ov recs - fzz_cogFrom ov recs) / COG_STEP + 2 ∧
    ∀ n : ℕ, n < fzz_cogN (fzz_cogFrom ov recs) (fzz_cogTo ov recs) ↔
      fzz_cogFrom ov recs + n * COG_STEP < fzz_cogTo ov recs + COG_STEP := by
  have h := (cogRange_spec ov recs hne hlo hhi hwf).2.2.2.2
  exact ⟨h, cogN_bound _ _ h, fun n => cogN_loopCond _ _ n⟩

theorem claim_C9_wit :
    fzz_cogFrom ovW [⟨1, 0⟩] ≤ fzz_cogTo ovW [⟨1, 0⟩] ∧
    (fzz_cogN (fzz_cogFrom ovW [⟨1, 0⟩]) (fzz_cogTo ovW [⟨1, 0⟩]) : ℚ) ≤
      (fzz_cogTo ovW [⟨1, 0⟩] - fzz_cogFrom ovW [⟨1, 0⟩]) / COG_STEP + 2 :=
  ⟨(claim_C9 ovW [⟨1, 0⟩] (by decide) (by decide) (by decide) (by decide)).1,
   (claim_C9 ovW [⟨1, 0⟩] (by decide) (by decide) (by decide) (by decide)).2.1⟩

/-- C7 as stated is false: on a system whose single output has an empty
inference result (no rule fires because the input value 10 is outside
every antecedent support), `fzz_calculateOutput` does not abort and does
not preserve the previous output value 5; it stores the 0/0 centroid
junk value (a NaN in C, 0 in this ℚ model). -/
theorem claim_C7_cx :
    fzz_calculateOutput sysE = .ok { sysE with output := [0] } ∧
    sysE.output = [5] ∧ (5 : ℚ) ≠ 0 :=
  ⟨by decide, rfl, by norm_num⟩

/-- C7 amended: for an output with an empty inference result the
integration loop of `fzz_defuzzify` runs zero iterations, both
accumulators stay 0, and the stored crisp value is the junk quotient 0/0
(NaN in C); the evaluation cycle is not aborted and the previous output
value is overwritten. -/
theorem claim_C7_amended (ov : TFcnsSet) :
    fzz_cogN (fzz_cogFrom ov []) (fzz_cogTo ov []) = 0 ∧
    fzz_cogLoop (fzz_outputValue ov []) (fzz_cogFrom ov [])
      (fzz_cogN (fzz_cogFrom ov []) (fzz_cogTo ov [])) = (0, 0) ∧
    fzz_defuzzify ov [] = 0 / 0 := by
  have hN0 : fzz_cogN DBL_MAX (-DBL_MAX) = 0 := by decide
  have hN : fzz_cogN (fzz_cogFrom ov []) (fzz_cogTo ov []) = 0 := hN0
  refine ⟨hN, by rw [hN]; rfl, ?_⟩
  simp only [fzz_defuzzify]
  rw [hN]
  rfl

/-!  Helper lemmas for the defuzzification surface and centroid. -/

theorem foldl_congr_inv {α β : Type} (P : β → Prop) (f g : β → α → β)
    (hP : ∀ b a, P b → P (f b a)) (hfg : ∀ b a, P b → f b a = g b a) :
    ∀ (l : List α) (b : β), P b → l.foldl f b = l.foldl g b
  | [], _, _ => rfl
  | a :: l, b, hb => by
    rw [List.foldl_cons, List.foldl_cons,
      foldl_congr_inv P f g hP hfg l (f b a) (hP b a hb), hfg b a hb]

theorem membership_nonneg (f : TFuzzySet) (x : ℚ) (h1 : f.left ≤ f.top)
    (h2 : f.top ≤ f.right) : 0 ≤ membership f x := by
  rw [membership]
  split_ifs with ha hb hc
  · exact le_refl 0
  · exact le_refl 0
  · have hx : f.left < x := not_le.mp ha
    have htl : 0 < f.top - f.left := sub_pos.mpr (lt_of_lt_of_le hx hc)
    exact mul_nonneg (le_of_lt (one_div_pos.mpr htl)) (sub_nonneg.mpr hx.le)
  · have hx1 : f.top < x := not_le.mp hc
    have hx2 : x < f.right := not_le.mp hb
    have hd : 0 < f.right - f.top := sub_pos.mpr (lt_trans hx1 hx2)
    have hx : x - f.top < f.right - f.top := by linarith
    rw [show f.top - f.right = -(f.right - f.top) by ring, one_div, inv_neg, neg_mul]
    have h6 : (f.right - f.top)⁻¹ * (x - f.top) < 1 := by
      rw [inv_mul_eq_div]
      exact (div_lt_one hd).mpr hx
    linarith

/-- The aggregated surface computed by `fzz_outputValue` coincides with
the spec formula: the maximum, starting from 0, of the consequent
membership degrees clipped at the firing strengths. -/
theorem outputValue_eq_spec (ov : TFcnsSet) (recs : List TInfRes) (x : ℚ) :
    fzz_outputValue ov recs x = spec_outputValue ov recs x := by
  rw [fzz_outputValue, spec_outputValue, List.foldl_map]
  refine foldl_congr_inv (fun a => 0 ≤ a) _ _ ?_ ?_ recs 0 (le_refl 0)
  · intro b r hb
    simp only
    split_ifs <;> linarith
  · intro b r hb
    simp only
    by_cases ha : x ≤ (ov.fSet.getD r.fSet default).left
    · rw [if_pos ha]
      have hm : membership (ov.fSet.getD r.fSet default) x = 0 := by
        rw [membership, if_pos ha]
      rw [hm]
      exact (max_eq_left (le_trans (min_le_left 0 r.value) hb)).symm
    · by_cases hbb : (ov.fSet.getD r.fSet default).right ≤ x
      · rw [if_neg ha, if_pos hbb]
        have hm : membership (ov.fSet.getD r.fSet default) x = 0 := by
          rw [membership, if_neg ha, if_pos hbb]
        rw [hm]
        exact (max_eq_left (le_trans (min_le_left 0 r.value) hb)).symm
      · by_cases hc : x ≤ (ov.fSet.getD r.fSet default).top
        · rw [if_neg ha, if_neg hbb, if_pos hc]
          have hm : membership (ov.fSet.getD r.fSet default) x =
              1 / ((ov.fSet.getD r.fSet default).top - (ov.fSet.getD r.fSet default).left) *
                (x - (ov.fSet.getD r.fSet default).left) := by
            rw [membership, if_neg ha, if_neg hbb, if_pos hc]
          rw [hm, ite_lt_eq_min, ite_gt_eq_max]
        · rw [if_neg ha, if_neg hbb, if_neg hc]
          have hm : membership (ov.fSet.getD r.fSet default) x =
              1 / ((ov.fSet.getD r.fSet default).top - (ov.fSet.getD r.fSet default).right) *
                (x - (ov.fSet.getD r.fSet default).top) + 1 := by
            rw [membership, if_neg ha, if_neg hbb, if_neg hc]
          rw [hm, ite_lt_eq_min, ite_gt_eq_max]

theorem cogLoop_eq_sums (V : ℚ → ℚ) (f : ℚ) :
    ∀ n : ℕ, fzz_cogLoop V f n =
      (((List.range n).map fun k : ℕ =>
          (f + (k : ℚ) * COG_STEP) * V (f + (k : ℚ) * COG_STEP)).sum,
       ((List.range n).map fun k : ℕ => V (f + (k : ℚ) * COG_STEP)).sum)
  | 0 => rfl
  | n + 1 => by
    rw [fzz_cogLoop, cogLoop_eq_sums V f n, List.range_succ, List.map_append,
      List.map_append, List.sum_append, List.sum_append]
    simp

/-- The fold computing `spec_outputValue` attains the maximum of a
non-empty list of non-negative values. -/
theorem foldl_max_attained (l : List ℚ) (hne : l ≠ []) (hnn : ∀ v ∈ l, 0 ≤ v) :
    l.foldl max 0 ∈ l ∧ ∀ v ∈ l, v ≤ l.foldl max 0 := by
  have h := foldl_max_spec l 0
  refine ⟨?_, h.2.2⟩
  rcases h.1 with h0 | hm
  · rcases List.exists_mem_of_ne_nil l hne with ⟨y, hy⟩
    have h1 : y ≤ 0 := h0 ▸ h.2.2 y hy
    have h2 : y = 0 := le_antisymm h1 (hnn y hy)
    rw [h0, ← h2]
    exact hy
  · exact hm

/-!  Helper lemmas for the rule evaluation fold of `fzz_evalRule`. -/

/-- The fold of `fzz_evalRule` stopped after the first `n` system inputs;
`fzz_evalRule numIn fzf ants` is `fzz_evalPrefix fzf ants numIn`. -/
def fzz_evalPrefix (fzf : List (List TFuzzifyRes)) (ants : List (ℕ × ℕ)) (n : ℕ) : ℕ × ℚ :=
  (List.range n).foldl
    (fun a i =>
      match ants.find? (fun c => c.1 == i) with
      | some c => fzz_evalScan (fzf.getD i []) c.2 a
      | none => a)
    (0, 0)

theorem evalRule_eq_evalPrefix (numIn : ℕ) (fzf : List (List TFuzzifyRes))
    (ants : List (ℕ × ℕ)) : fzz_evalRule numIn fzf ants = fzz_evalPrefix fzf ants numIn := rfl

theorem evalPrefix_succ (fzf : List (List TFuzzifyRes)) (ants : List (ℕ × ℕ)) (n : ℕ) :
    fzz_evalPrefix fzf ants (n + 1) =
      match ants.find? (fun c => c.1 == n) with
      | some c => fzz_evalScan (fzf.getD n []) c.2 (fzz_evalPrefix fzf ants n)
      | none => fzz_evalPrefix fzf ants n := by
  rw [fzz_evalPrefix, List.range_succ, List.foldl_append]
  rfl

theorem evalScan_count (t : ℕ) :
    ∀ (l : List TFuzzifyRes) (acc : ℕ × ℚ),
      (fzz_evalScan l t acc).1 = acc.1 + l.countP (fun r => r.setIndex == t)
  | [], acc => by simp [fzz_evalScan]
  | r :: l, acc => by
    rw [fzz_evalScan, List.foldl_cons, List.countP_cons]
    by_cases h : (r.setIndex == t) = true
    · rw [if_pos h]
      have ih := evalScan_count t l (acc.1 + 1,
        if acc.1 = 0 then r.membership
        else if r.membership < acc.2 then r.membership else acc.2)
      rw [fzz_evalScan] at ih
      rw [ih, h]
      simp
      omega
    · rw [if_neg h]
      have ih := evalScan_count t l acc
      rw [fzz_evalScan] at ih
      rw [ih]
      have hb : (r.setIndex == t) = false := Bool.not_eq_true _ ▸ h
      rw [hb]
      simp

theorem evalScan_nomatch (t : ℕ) :
    ∀ (l : List TFuzzifyRes) (acc : ℕ × ℚ), (∀ r ∈ l, r.setIndex ≠ t) →
      fzz_evalScan l t acc = acc
  | [], _, _ => rfl
  | r :: l, acc, h => by
    rw [fzz_evalScan, List.foldl_cons,
      if_neg (by simpa using h r (List.mem_cons_self r l))]
    exact evalScan_nomatch t l acc fun s hs => h s (List.mem_cons_of_mem r hs)

theorem evalScan_found (t : ℕ) :
    ∀ (l : List TFuzzifyRes) (acc : ℕ × ℚ) (r₀ : TFuzzifyRes),
      (l.map TFuzzifyRes.setIndex).Nodup →
      l.find? (fun r => r.setIndex == t) = some r₀ →
      fzz_evalScan l t acc = (acc.1 + 1,
        if acc.1 = 0 then r₀.membership
        else if r₀.membership < acc.2 then r₀.membership else acc.2)
  | [], _, _, _, hfind => by cases hfind
  | r :: l, acc, r₀, hnd, hfind => by
    by_cases h : (r.setIndex == t) = true
    · rw [List.find?_cons_of_pos l h] at hfind
      have hr : r = r₀ := Option.some.inj hfind
      subst hr
      rw [fzz_evalScan, List.foldl_cons, if_pos h]
      refine evalScan_nomatch t l _ fun s hs hst => ?_
      have h1 : r.setIndex ∈ l.map TFuzzifyRes.setIndex :=
        List.mem_map.mpr ⟨s, hs, by rw [hst, beq_iff_eq.mp h]⟩
      exact (List.nodup_cons.mp (by simpa using hnd)).1 h1
    · rw [List.find?_cons_of_neg l h] at hfind
      rw [fzz_evalScan, List.foldl_cons, if_neg h]
      exact evalScan_found t l acc r₀ (by simpa using (List.nodup_cons.mp (by simpa using hnd)).2)
        hfind

theorem countP_nat_lt_succ (l : List (ℕ × ℕ)) (pres : (ℕ × ℕ) → Bool) (n : ℕ) :
    l.countP (fun c => decide (c.1 < n + 1) && pres c) =
      l.countP (fun c => decide (c.1 < n) && pres c) +
      l.countP (fun c => decide (c.1 = n) && pres c) := by
  induction l with
  | nil => rfl
  | cons a l ih =>
    rw [List.countP_cons, List.countP_cons, List.countP_cons, ih]
    by_cases h1 : a.1 < n
    · have h2 : ¬(a.1 = n) := by omega
      have h3 : a.1 < n + 1 := by omega
      cases hp : pres a <;> simp [h1, h2, h3, hp] <;> omega
    · by_cases h2 : a.1 = n
      · have h3 : a.1 < n + 1 := by omega
        cases hp : pres a <;> simp [h1, h2, h3, hp] <;> omega
      · have h3 : ¬(a.1 < n + 1) := by omega
        cases hp : pres a <;> simp [h1, h2, h3, hp]

theorem countP_nat_lt_succ' (l : List ℕ) (n : ℕ) :
    l.countP (fun i => decide (i < n + 1)) =
      l.countP (fun i => decide (i < n)) + l.countP (fun i => decide (i = n)) := by
  induction l with
  | nil => rfl
  | cons a l ih =>
    rw [List.countP_cons, List.countP_cons, List.countP_cons, ih]
    by_cases h1 : a < n
    · have h2 : ¬(a = n) := by omega
      have h3 : a < n + 1 := by omega
      simp [h1, h2, h3]
      omega
    · by_cases h2 : a = n
      · have h3 : a < n + 1 := by omega
        simp [h1, h2, h3]
        omega
      · have h3 : ¬(a < n + 1) := by omega
        simp [h1, h2, h3]

theorem countP_le_one_of_nodup (t : ℕ) :
    ∀ l : List TFuzzifyRes, (l.map TFuzzifyRes.setIndex).Nodup →
      l.countP (fun r => r.setIndex == t) ≤ 1
  | [], _ => by simp
  | r :: l, hnd => by
    rw [List.countP_cons]
    by_cases h : (r.setIndex == t) = true
    · have hz : l.countP (fun r => r.setIndex == t) = 0 := by
        rw [List.countP_eq_zero]
        intro s hs hst
        have h1 : r.setIndex ∈ l.map TFuzzifyRes.setIndex :=
          List.mem_map.mpr ⟨s, hs, by rw [beq_iff_eq.mp hst, beq_iff_eq.mp h]⟩
        exact (List.nodup_cons.mp (by simpa using hnd)).1 h1
      rw [hz, h]
      simp
    · have ih := countP_le_one_of_nodup t l
        (by simpa using (List.nodup_cons.mp (by simpa using hnd)).2)
      have hb : (r.setIndex == t) = false := Bool.not_eq_true _ ▸ h
      rw [hb]
      simpa using ih

theorem countP_beq_eq_one_of_nodup {α : Type} [BEq α] [LawfulBEq α] :
    ∀ (l : List α), l.Nodup → ∀ a : α, a ∈ l → l.countP (fun c => c == a) = 1
  | [], _, _, ha => absurd ha (List.not_mem_nil _)
  | b :: l, hl, a, ha => by
    rw [List.countP_cons]
    rcases List.mem_cons.mp ha with rfl | hal
    · have hz : l.countP (fun c => c == a) = 0 := by
        rw [List.countP_eq_zero]
        intro s hs hsa
        exact (List.nodup_cons.mp hl).1 ((beq_iff_eq.mp hsa) ▸ hs)
      simp [hz]
    · have hba : ¬(b == a) = true := by
        intro hba
        exact (List.nodup_cons.mp hl).1 ((beq_iff_eq.mp hba) ▸ hal)
      have ih := countP_beq_eq_one_of_nodup l (List.nodup_cons.mp hl).2 a hal
      simp [hba, ih]

theorem dedup_length_lt_of_not_nodup (l : List ℕ) (h : ¬ l.Nodup) :
    l.dedup.length < l.length := by
  have hsub := List.dedup_sublist l
  rcases lt_or_eq_of_le hsub.length_le with hlt | heq
  · exact hlt
  · exact absurd (hsub.eq_of_length heq ▸ List.nodup_dedup l) h

/-- Invariant of the rule evaluation loop over the first `n` system
inputs, for a rule whose parsed antecedents name pairwise distinct
inputs: the match count is the number of antecedent pairs with input
index below `n` that are present in the fuzzification results, and the
running minimum is attained at, and bounds, the degrees of those
pairs. -/
theorem evalPrefix_spec (fzf : List (List TFuzzifyRes)) (ants : List (ℕ × ℕ))
    (hnd : ∀ i : ℕ, ((fzf.getD i []).map TFuzzifyRes.setIndex).Nodup)
    (hfst : (ants.map Prod.fst).Nodup) :
    ∀ n : ℕ,
      (fzz_evalPrefix fzf ants n).1 =
        ants.countP (fun c => decide (c.1 < n) && decide (fzzPresent fzf c)) ∧
      ((fzz_evalPrefix fzf ants n).1 = 0 → (fzz_evalPrefix fzf ants n).2 = 0) ∧
      (∀ c ∈ ants, c.1 < n → fzzPresent fzf c →
        (fzz_evalPrefix fzf ants n).2 ≤ fzzDegree fzf c) ∧
      ((fzz_evalPrefix fzf ants n).1 ≠ 0 →
        ∃ c ∈ ants, c.1 < n ∧ fzzPresent fzf c ∧
          (fzz_evalPrefix fzf ants n).2 = fzzDegree fzf c) := by
  intro n
  induction n with
  | zero =>
    refine ⟨?_, fun _ => rfl, fun c _ hc _ => absurd hc (Nat.not_lt_zero _),
      fun h => absurd rfl h⟩
    have h0 : ants.countP (fun c => decide (c.1 < 0) && decide (fzzPresent fzf c)) = 0 := by
      rw [List.countP_eq_zero]
      intro a _
      simp
    rw [h0]
    rfl
  | succ n ih =>
    obtain ⟨ih1, ih2, ih3, ih4⟩ := ih
    cases hfind : ants.find? (fun c => c.1 == n) with
    | none =>
      have hno : ∀ c ∈ ants, c.1 ≠ n := by
        intro c hc hceq
        have := List.find?_eq_none.mp hfind c hc
        simp [hceq] at this
      have hcnt0 : ants.countP (fun c => decide (c.1 = n) && decide (fzzPresent fzf c)) = 0 := by
        rw [List.countP_eq_zero]
        intro c hc
        simp [hno c hc]
      have hstep : fzz_evalPrefix fzf ants (n + 1) = fzz_evalPrefix fzf ants n := by
        rw [evalPrefix_succ, hfind]
      rw [hstep]
      refine ⟨?_, ih2, ?_, ?_⟩
      · rw [countP_nat_lt_succ, hcnt0, Nat.add_zero]
        exact ih1
      · intro c hc hlt hpres
        have hclt : c.1 < n := by
          have := hno c hc
          omega
        exact ih3 c hc hclt hpres
      · intro h
        obtain ⟨c, hc, hlt, hp, heq⟩ := ih4 h
        exact ⟨c, hc, by omega, hp, heq⟩
    | some c₀ =>
      have hc₀mem : c₀ ∈ ants := List.mem_of_find?_eq_some hfind
      have hc₀fst : c₀.1 = n := by
        have h0 := @List.find?_some (ℕ × ℕ) (fun c => c.1 == n) c₀ ants hfind
        exact beq_iff_eq.mp h0
      have huniq : ∀ c ∈ ants, c.1 = n → c = c₀ := fun c hc hceq =>
        List.inj_on_of_nodup_map hfst hc hc₀mem (hceq.trans hc₀fst.symm)
      by_cases hpres : fzzPresent fzf c₀
      · obtain ⟨r₀, hr₀mem, hr₀idx⟩ := hpres
        have hpres' : fzzPresent fzf c₀ := ⟨r₀, hr₀mem, hr₀idx⟩
        obtain ⟨r₁, hr₁⟩ := Option.isSome_iff_exists.mp
          ((@List.find?_isSome TFuzzifyRes (fzf.getD c₀.1 [])
              (fun r => r.setIndex == c₀.2)).mpr
            ⟨r₀, hr₀mem, beq_iff_eq.mpr hr₀idx⟩)
        have hdeg : fzzDegree fzf c₀ = r₁.membership := by rw [fzzDegree, hr₁]
        have hr₁n : (fzf.getD n []).find? (fun r => r.setIndex == c₀.2) = some r₁ :=
          hc₀fst ▸ hr₁
        have hscan := evalScan_found c₀.2 (fzf.getD n []) (fzz_evalPrefix fzf ants n) r₁
          (hnd n) hr₁n
        have hcnt1 : ants.countP
            (fun c => decide (c.1 = n) && decide (fzzPresent fzf c)) = 1 := by
          have hcg : ants.countP (fun c => decide (c.1 = n) && decide (fzzPresent fzf c)) =
              ants.countP (fun c => c == c₀) := by
            refine List.countP_congr fun c hc => ?_
            constructor
            · intro hcq
              simp only [Bool.and_eq_true, decide_eq_true_eq] at hcq
              simp [huniq c hc hcq.1]
            · intro hcq
              have hcc : c = c₀ := by simpa using hcq
              subst hcc
              simp [hc₀fst, hpres']
          rw [hcg]
          exact countP_beq_eq_one_of_nodup ants (hfst.of_map Prod.fst) c₀ hc₀mem
        have hstep : fzz_evalPrefix fzf ants (n + 1) =
            fzz_evalScan (fzf.getD n []) c₀.2 (fzz_evalPrefix fzf ants n) := by
          rw [evalPrefix_succ, hfind]
        rw [hstep, hscan]
        refine ⟨?_, ?_, ?_, ?_⟩
        · show (fzz_evalPrefix fzf ants n).1 + 1 = _
          rw [countP_nat_lt_succ, hcnt1, ih1]
        · intro h
          exact absurd h (Nat.succ_ne_zero _)
        · intro c hc hlt hcpres
          show (if (fzz_evalPrefix fzf ants n).1 = 0 then r₁.membership
            else if r₁.membership < (fzz_evalPrefix fzf ants n).2 then r₁.membership
            else (fzz_evalPrefix fzf ants n).2) ≤ fzzDegree fzf c
          by_cases hA : (fzz_evalPrefix fzf ants n).1 = 0
          · rw [if_pos hA]
            by_cases hcn : c.1 = n
            · rw [huniq c hc hcn, hdeg]
            · have hclt : c.1 < n := by omega
              have hpos : 0 < ants.countP
                  (fun c => decide (c.1 < n) && decide (fzzPresent fzf c)) :=
                List.countP_pos.mpr ⟨c, hc, by simp [hclt, hcpres]⟩
              rw [ih1] at hA
              omega
          · rw [if_neg hA]
            by_cases hm : r₁.membership < (fzz_evalPrefix fzf ants n).2
            · rw [if_pos hm]
              by_cases hcn : c.1 = n
              · rw [huniq c hc hcn, hdeg]
              · have hclt : c.1 < n := by omega
                exact le_trans hm.le (ih3 c hc hclt hcpres)
            · rw [if_neg hm]
              by_cases hcn : c.1 = n
              · rw [huniq c hc hcn, hdeg]
                exact not_lt.mp hm
              · have hclt : c.1 < n := by omega
                exact ih3 c hc hclt hcpres
        · intro _
          show ∃ c ∈ ants, c.1 < n + 1 ∧ fzzPresent fzf c ∧
            (if (fzz_evalPrefix fzf ants n).1 = 0 then r₁.membership
              else if r₁.membership < (fzz_evalPrefix fzf ants n).2 then r₁.membership
              else (fzz_evalPrefix fzf ants n).2) = fzzDegree fzf c
          by_cases hA : (fzz_evalPrefix fzf ants n).1 = 0
          · exact ⟨c₀, hc₀mem, by omega, hpres', by rw [if_pos hA, hdeg]⟩
          · by_cases hm : r₁.membership < (fzz_evalPrefix fzf ants n).2
            · exact ⟨c₀, hc₀mem, by omega, hpres', by rw [if_neg hA, if_pos hm, hdeg]⟩
            · obtain ⟨c, hc, hlt, hp, heq⟩ := ih4 hA
              exact ⟨c, hc, by omega, hp, by rw [if_neg hA, if_neg hm]; exact heq⟩
      · have hnomatch : ∀ r ∈ fzf.getD n [], r.setIndex ≠ c₀.2 := by
          intro r hr heq
          exact hpres ⟨r, by rw [hc₀fst]; exact hr, heq⟩
        have hscan := evalScan_nomatch c₀.2 (fzf.getD n []) (fzz_evalPrefix fzf ants n)
          hnomatch
        have hcnt0 : ants.countP
            (fun c => decide (c.1 = n) && decide (fzzPresent fzf c)) = 0 := by
          rw [List.countP_eq_zero]
          intro c hc
          by_cases hcn : c.1 = n
          · have hcc := huniq c hc hcn
            subst hcc
            simp [hpres]
          · simp [hcn]
        have hstep : fzz_evalPrefix fzf ants (n + 1) =
            fzz_evalScan (fzf.getD n []) c₀.2 (fzz_evalPrefix fzf ants n) := by
          rw [evalPrefix_succ, hfind]
        rw [hstep, hscan]
        refine ⟨?_, ih2, ?_, ?_⟩
        · rw [countP_nat_lt_succ, hcnt0, Nat.add_zero]
          exact ih1
        · intro c hc hlt hcpres
          by_cases hcn : c.1 = n
          · exact absurd (huniq c hc hcn ▸ hcpres) hpres
          · exact ih3 c hc (by omega) hcpres
        · intro h
          obtain ⟨c, hc, hlt, hp, heq⟩ := ih4 h
          exact ⟨c, hc, by omega, hp, heq⟩

theorem getD_mem_or_default {α : Type} (L : List α) (d : α) (i : ℕ) :
    L.getD i d ∈ L ∨ L.getD i d = d := by
  by_cases h : i < L.length
  · left
    rw [List.getD_eq_getElem L d h]
    exact List.getElem_mem h
  · right
    exact List.getD_eq_default L d (not_lt.mp h)

theorem fuzzifyAll_getD_nodup (ins : List TFcnsSet) (input : List ℚ) (i : ℕ) :
    (((fuzzifyAll ins input).getD i []).map TFuzzifyRes.setIndex).Nodup := by
  rcases getD_mem_or_default (fuzzifyAll ins input) [] i with h | h
  · exact fuzzifyAll_nodup ins input _ h
  · rw [h]
    exact List.nodup_nil

/-- Upper bound on the match count: the evaluation loop over the first
`n` system inputs matches at most one antecedent pair per distinct input
index below `n`, because only the first parsed pair naming an input is
looked up and a duplicate-free fuzzification result is scanned. -/
theorem evalPrefix_count_le (fzf : List (List TFuzzifyRes)) (ants : List (ℕ × ℕ))
    (hnd : ∀ i : ℕ, ((fzf.getD i []).map TFuzzifyRes.setIndex).Nodup) :
    ∀ n : ℕ, (fzz_evalPrefix fzf ants n).1 ≤
      ((ants.map Prod.fst).dedup.filter fun i => decide (i < n)).length := by
  intro n
  induction n with
  | zero => exact Nat.zero_le _
  | succ n ih =>
    cases hfind : ants.find? (fun c => c.1 == n) with
    | none =>
      have hstep : fzz_evalPrefix fzf ants (n + 1) = fzz_evalPrefix fzf ants n := by
        rw [evalPrefix_succ, hfind]
      rw [hstep, ← List.countP_eq_length_filter, countP_nat_lt_succ']
      rw [← List.countP_eq_length_filter] at ih
      omega
    | some c₀ =>
      have hc₀mem : c₀ ∈ ants := List.mem_of_find?_eq_some hfind
      have hc₀fst : c₀.1 = n := by
        have h0 := @List.find?_some (ℕ × ℕ) (fun c => c.1 == n) c₀ ants hfind
        exact beq_iff_eq.mp h0
      have hstep : fzz_evalPrefix fzf ants (n + 1) =
          fzz_evalScan (fzf.getD n []) c₀.2 (fzz_evalPrefix fzf ants n) := by
        rw [evalPrefix_succ, hfind]
      have hscan := evalScan_count c₀.2 (fzf.getD n []) (fzz_evalPrefix fzf ants n)
      have hone := countP_le_one_of_nodup c₀.2 (fzf.getD n []) (hnd n)
      have hmemn : n ∈ (ants.map Prod.fst).dedup :=
        List.mem_dedup.mpr (hc₀fst ▸ List.mem_map_of_mem Prod.fst hc₀mem)
      have hcnt1 : (ants.map Prod.fst).dedup.countP (fun i => decide (i = n)) = 1 := by
        have hcg : (ants.map Prod.fst).dedup.countP (fun i => decide (i = n)) =
            (ants.map Prod.fst).dedup.countP (fun i => i == n) :=
          List.countP_congr fun i _ => by simp
        rw [hcg]
        exact countP_beq_eq_one_of_nodup _ (List.nodup_dedup _) n hmemn
      rw [hstep, ← List.countP_eq_length_filter, countP_nat_lt_succ', hcnt1, hscan]
      rw [← List.countP_eq_length_filter] at ih
      omega

/-- C2 as stated is false: for the rule
`if x is a and x is a then y is b`, whose two antecedent clauses name the
same input with a term present at positive degree, the inference stage
records nothing (the evaluation visits only the first clause per system
input, so the match count stays at 1 < 2). -/
theorem claim_C2_cx :
    fzz_parseRule sysDup.inSet sysDup.outSet "if x is a and x is a then y is b" =
      .ok ⟨[(0, 0), (0, 0)], 0, 0⟩ ∧
    fzzPresent (fuzzifyAll sysDup.inSet sysDup.input) (0, 0) ∧
    fzzDegree (fuzzifyAll sysDup.inSet sysDup.input) (0, 0) = 1 ∧
    fzz_ininference sysDup.inSet sysDup.outSet (fuzzifyAll sysDup.inSet sysDup.input) [[]]
      "if x is a and x is a then y is b" = .ok [[]] :=
  ⟨by decide, by decide, by decide, by decide⟩

/-- C2 amended: for a stored rule whose parsed antecedent clauses name
pairwise distinct system inputs, the inference stage records a firing for
the rule consequent output exactly when every clause pair appears in that
input fuzzification result; the recorded strength is then the minimum of
the matched degrees, and otherwise the rule changes no inference
table. -/
theorem claim_C2_amended (ins outs : List TFcnsSet) (input : List ℚ)
    (inf : List (List TInfRes)) (text : String) (r : ParsedRule)
    (hparse : fzz_parseRule ins outs text = .ok r)
    (hne : r.ants ≠ [])
    (hfst : (r.ants.map Prod.fst).Nodup)
    (hv : ∀ c ∈ r.ants, c.1 < ins.length) :
    ((∀ c ∈ r.ants, fzzPresent (fuzzifyAll ins input) c) →
      fzz_ininference ins outs (fuzzifyAll ins input) inf text =
        .ok (inf.set r.output ((inf.getD r.output []) ++
          [⟨(fzz_evalRule ins.length (fuzzifyAll ins input) r.ants).2, r.outSet⟩])) ∧
      (fzz_evalRule ins.length (fuzzifyAll ins input) r.ants).2 ∈
        r.ants.map (fzzDegree (fuzzifyAll ins input)) ∧
      ∀ d ∈ r.ants.map (fzzDegree (fuzzifyAll ins input)),
        (fzz_evalRule ins.length (fuzzifyAll ins input) r.ants).2 ≤ d) ∧
    ((¬ ∀ c ∈ r.ants, fzzPresent (fuzzifyAll ins input) c) →
      fzz_ininference ins outs (fuzzifyAll ins input) inf text = .ok inf) := by
  have hnd : ∀ i : ℕ,
      (((fuzzifyAll ins input).getD i []).map TFuzzifyRes.setIndex).Nodup :=
    fuzzifyAll_getD_nodup ins input
  obtain ⟨h1, h2, h3, h4⟩ :=
    evalPrefix_spec (fuzzifyAll ins input) r.ants hnd hfst ins.length
  rw [← evalRule_eq_evalPrefix] at h1 h2 h3 h4
  have hcount : (fzz_evalRule ins.length (fuzzifyAll ins input) r.ants).1 =
      r.ants.countP (fun c => decide (fzzPresent (fuzzifyAll ins input) c)) := by
    rw [h1]
    refine List.countP_congr fun c hc => ?_
    simp [hv c hc]
  constructor
  · intro hall
    have hm : (fzz_evalRule ins.length (fuzzifyAll ins input) r.ants).1 =
        r.ants.length := by
      rw [hcount, List.countP_eq_length]
      intro c hc
      simpa using hall c hc
    have hm0 : (fzz_evalRule ins.length (fuzzifyAll ins input) r.ants).1 ≠ 0 := by
      rw [hm]
      exact fun h => hne (List.length_eq_zero.mp h)
    refine ⟨?_, ?_, ?_⟩
    · simp only [fzz_ininference, hparse]
      rw [if_pos hm]
    · obtain ⟨c, hc, _, _, heq⟩ := h4 hm0
      rw [heq]
      exact List.mem_map_of_mem _ hc
    · intro d hd
      obtain ⟨c, hc, rfl⟩ := List.mem_map.mp hd
      exact h3 c hc (hv c hc) (hall c hc)
  · intro hnall
    have hm : (fzz_evalRule ins.length (fuzzifyAll ins input) r.ants).1 ≠
        r.ants.length := by
      intro hm
      apply hnall
      intro c hc
      have hall := List.countP_eq_length.mp (hcount ▸ hm) c hc
      simpa using hall
    simp only [fzz_ininference, hparse]
    rw [if_neg hm]

theorem claim_C2_amended_wit :
    fzz_ininference sysTwo.inSet sysTwo.outSet (fuzzifyAll sysTwo.inSet sysTwo.input) [[]]
      "if x is a and z is c then y is b" =
      .ok ([[]].set 0 (([[]].getD 0 []) ++
        [⟨(fzz_evalRule sysTwo.inSet.length (fuzzifyAll sysTwo.inSet sysTwo.input)
            [(0, 0), (1, 0)]).2, 0⟩])) ∧
    (fzz_evalRule sysTwo.inSet.length (fuzzifyAll sysTwo.inSet sysTwo.input)
        [(0, 0), (1, 0)]).2 ∈
      [(0, 0), (1, 0)].map (fzzDegree (fuzzifyAll sysTwo.inSet sysTwo.input)) :=
  ⟨((claim_C2_amended sysTwo.inSet sysTwo.outSet sysTwo.input [[]]
      "if x is a and z is c then y is b" ⟨[(0, 0), (1, 0)], 0, 0⟩
      (by decide) (by decide) (by decide) (by decide)).1 (by decide)).1,
   ((claim_C2_amended sysTwo.inSet sysTwo.outSet sysTwo.input [[]]
      "if x is a and z is c then y is b" ⟨[(0, 0), (1, 0)], 0, 0⟩
      (by decide) (by decide) (by decide) (by decide)).1 (by decide)).2.1⟩

/-- C10: a stored rule with two antecedent clauses naming the same input
never records a firing, whatever the fuzzification results: the
evaluation loop matches at most one antecedent pair per distinct system
input, so the match count stays below the parsed clause count. -/
theorem claim_C10 (ins outs : List TFcnsSet) (input : List ℚ)
    (inf : List (List TInfRes)) (text : String) (r : ParsedRule)
    (hparse : fzz_parseRule ins outs text = .ok r)
    (hdup : ¬ (r.ants.map Prod.fst).Nodup) :
    fzz_ininference ins outs (fuzzifyAll ins input) inf text = .ok inf := by
  have hnd : ∀ i : ℕ,
      (((fuzzifyAll ins input).getD i []).map TFuzzifyRes.setIndex).Nodup :=
    fuzzifyAll_getD_nodup ins input
  have hle := evalPrefix_count_le (fuzzifyAll ins input) r.ants hnd ins.length
  have hlt : (fzz_evalRule ins.length (fuzzifyAll ins input) r.ants).1 <
      r.ants.length := by
    rw [evalRule_eq_evalPrefix]
    have hf : ((r.ants.map Prod.fst).dedup.filter fun i => decide (i < ins.length)).length ≤
        (r.ants.map Prod.fst).dedup.length := by
      rw [← List.countP_eq_length_filter]
      exact List.countP_le_length _
    have hd := dedup_length_lt_of_not_nodup (r.ants.map Prod.fst) hdup
    have hml : (r.ants.map Prod.fst).length = r.ants.length := List.length_map _ _
    omega
  simp only [fzz_ininference, hparse]
  rw [if_neg (Nat.ne_of_lt hlt)]

theorem claim_C10_wit :
    fzz_ininference sysDup.inSet sysDup.outSet (fuzzifyAll sysDup.inSet sysDup.input)
      [[⟨1, 0⟩]] "if x is a and x is a then y is b" = .ok [[⟨1, 0⟩]] :=
  claim_C10 sysDup.inSet sysDup.outSet sysDup.input [[⟨1, 0⟩]]
    "if x is a and x is a then y is b" ⟨[(0, 0), (0, 0)], 0, 0⟩ (by decide) (by decide)

/-- C3: for a non-empty inference result over well-formed consequent
terms with non-negative firing strengths, defuzzification returns exactly
the quotient of the discretized sums of x * outputValue(x) and
outputValue(x), sampled at from + n * COG_STEP for
n = 0 .. ceil((to - from) / COG_STEP), where from is the minimum left
endpoint and to the maximum right endpoint over the referenced consequent
supports, and outputValue is the pointwise maximum over records of the
record consequent membership clipped at the record firing strength. -/
theorem claim_C3 (ov : TFcnsSet) (recs : List TInfRes) (hne : recs ≠ [])
    (hval : ∀ r ∈ recs, 0 ≤ r.value)
    (hwf1 : ∀ r ∈ recs, (ov.fSet.getD r.fSet default).left ≤ (ov.fSet.getD r.fSet default).top)
    (hwf2 : ∀ r ∈ recs, (ov.fSet.getD r.fSet default).top ≤ (ov.fSet.getD r.fSet default).right)
    (hlo : ∀ r ∈ recs, -DBL_MAX < (ov.fSet.getD r.fSet default).left)
    (hhi : ∀ r ∈ recs, (ov.fSet.getD r.fSet default).right < DBL_MAX) :
    (fzz_cogFrom ov recs ∈ recs.map fun r => (ov.fSet.getD r.fSet default).left) ∧
    (∀ y ∈ recs.map fun r => (ov.fSet.getD r.fSet default).left, fzz_cogFrom ov recs ≤ y) ∧
    (fzz_cogTo ov recs ∈ recs.map fun r => (ov.fSet.getD r.fSet default).right) ∧
    (∀ y ∈ recs.map fun r => (ov.fSet.getD r.fSet default).right, y ≤ fzz_cogTo ov recs) ∧
    ((fzz_cogN (fzz_cogFrom ov recs) (fzz_cogTo ov recs) : ℤ) =
      Int.ceil ((fzz_cogTo ov recs - fzz_cogFrom ov recs) / COG_STEP) + 1) ∧
    fzz_defuzzify ov recs =
      (((List.range (fzz_cogN (fzz_cogFrom ov recs) (fzz_cogTo ov recs))).map fun k : ℕ =>
          (fzz_cogFrom ov recs + (k : ℚ) * COG_STEP) *
            spec_outputValue ov recs (fzz_cogFrom ov recs + (k : ℚ) * COG_STEP)).sum) /
      (((List.range (fzz_cogN (fzz_cogFrom ov recs) (fzz_cogTo ov recs))).map fun k : ℕ =>
          spec_outputValue ov recs (fzz_cogFrom ov recs + (k : ℚ) * COG_STEP)).sum) ∧
    ∀ x : ℚ,
      spec_outputValue ov recs x ∈
        (recs.map fun r => min (membership (ov.fSet.getD r.fSet default) x) r.value) ∧
      ∀ v ∈ recs.map fun r => min (membership (ov.fSet.getD r.fSet default) x) r.value,
        v ≤ spec_outputValue ov recs x := by
  have hwf : ∀ r ∈ recs,
      (ov.fSet.getD r.fSet default).left ≤ (ov.fSet.getD r.fSet default).right :=
    fun r hr => le_trans (hwf1 r hr) (hwf2 r hr)
  have hrange := cogRange_spec ov recs hne hlo hhi hwf
  have hVeq : fzz_outputValue ov recs = spec_outputValue ov recs :=
    funext fun x => outputValue_eq_spec ov recs x
  refine ⟨hrange.1, hrange.2.1, hrange.2.2.1, hrange.2.2.2.1,
    cogN_formula _ _ hrange.2.2.2.2, ?_, ?_⟩
  · simp only [fzz_defuzzify]
    rw [cogLoop_eq_sums, hVeq]
  · intro x
    have hnn : ∀ v ∈ recs.map fun r =>
        min (membership (ov.fSet.getD r.fSet default) x) r.value, 0 ≤ v := by
      intro v hv
      rcases List.mem_map.mp hv with ⟨r, hr, rfl⟩
      exact le_min (membership_nonneg _ x (hwf1 r hr) (hwf2 r hr)) (hval r hr)
    have hmapne : (recs.map fun r =>
        min (membership (ov.fSet.getD r.fSet default) x) r.value) ≠ [] := by
      simpa using hne
    exact foldl_max_attained _ hmapne hnn

/-- C6: running `fzz_calculateOutput` twice in succession with unchanged
inputs, rules and configuration yields identical output values: the
pipeline reads only the configuration and input fields, so the second
run recomputes exactly the values of the first. -/
theorem claim_C6 (sys s₁ s₂ : TFzzSystem)
    (h1 : fzz_calculateOutput sys = .ok s₁)
    (h2 : fzz_calculateOutput s₁ = .ok s₂) :
    s₂.output = s₁.output := by
  cases sys with
  | mk inSet outSet input output rules =>
    rw [fzz_calculateOutput] at h1
    cases hp : fzz_pipeline ⟨inSet, outSet, input, output, rules⟩ with
    | error e => rw [hp] at h1; cases h1
    | ok out1 =>
      rw [hp] at h1
      have hs₁ : s₁ = ⟨inSet, outSet, input, out1, rules⟩ := (Except.ok.inj h1).symm
      subst hs₁
      rw [fzz_calculateOutput] at h2
      have hpeq : fzz_pipeline ⟨inSet, outSet, input, out1, rules⟩ =
          fzz_pipeline ⟨inSet, outSet, input, output, rules⟩ := rfl
      rw [hpeq, hp] at h2
      have hs₂ : (⟨inSet, outSet, input, out1, rules⟩ : TFzzSystem) = s₂ := Except.ok.inj h2
      rw [← hs₂]

theorem claim_C6_wit :
    fzz_calculateOutput sysW = .ok { sysW with output := [1 / 50] } ∧
    fzz_calculateOutput { sysW with output := [1 / 50] } =
      .ok { sysW with output := [1 / 50] } ∧
    ({ sysW with output := [1 / 50] } : TFzzSystem).output =
      ({ sysW with output := [1 / 50] } : TFzzSystem).output :=
  ⟨by decide, by decide,
    claim_C6 sysW { sysW with output := [1 / 50] } { sysW with output := [1 / 50] }
      (by decide) (by decide)⟩

/-!  Helper lemmas for the rule text state machine. -/

theorem parseRun_cons (ins outs : List TFcnsSet) (c : Char) (cs : List Char) (st : PRun) :
    fzz_parseRun ins outs (c :: cs) st =
      match fzz_pstep ins outs st c with
      | .ok st2 => fzz_parseRun ins outs cs st2
      | .error e => .error e := rfl

theorem parseRun_cons_ok (ins outs : List TFcnsSet) (c : Char) (cs : List Char)
    (st st2 : PRun) (h : fzz_pstep ins outs st c = .ok st2) :
    fzz_parseRun ins outs (c :: cs) st = fzz_parseRun ins outs cs st2 := by
  rw [parseRun_cons, h]

theorem parseRun_cons_error (ins outs : List TFcnsSet) (c : Char) (cs : List Char)
    (st : PRun) (e : String) (h : fzz_pstep ins outs st c = .error e) :
    fzz_parseRun ins outs (c :: cs) st = .error e := by
  rw [parseRun_cons, h]

theorem parseRun_token (ins outs : List TFcnsSet) :
    ∀ (cs : List Char), (∀ c ∈ cs, c ≠ ' ') →
      ∀ (rest : List Char) (s : ℕ) (w : List Char) (a : List (ℕ × ℕ)) (ci o : ℕ),
        fzz_parseRun ins outs (cs ++ rest) ⟨s, w, a, ci, o⟩ =
          fzz_parseRun ins outs rest ⟨s, w ++ cs, a, ci, o⟩
  | [], _, rest, s, w, a, ci, o => by
    rw [List.nil_append, List.append_nil]
  | c :: cs, hns, rest, s, w, a, ci, o => by
    have hc : c ≠ ' ' := hns c (List.mem_cons_self c cs)
    have hstep : fzz_pstep ins outs ⟨s, w, a, ci, o⟩ c = .ok ⟨s, w ++ [c], a, ci, o⟩ := by
      rcases s with _ | _ | _ | _ | _ | _ | _ | s <;>
        simp only [fzz_pstep] <;>
        first
          | rfl
          | rw [if_neg hc]
    show fzz_parseRun ins outs (c :: (cs ++ rest)) _ = _
    rw [parseRun_cons_ok ins outs c (cs ++ rest) _ _ hstep]
    rw [parseRun_token ins outs cs
      (fun d hd => hns d (List.mem_cons_of_mem c hd)) rest s (w ++ [c]) a ci o]
    simp

/-- C5 as stated is false: the rule text `zero`, which does not conform
to the grammar at all, is silently accepted (the state machine never
leaves state 0 and looks the whole text up as a fuzzy set name of output
0) and the resulting empty-antecedent rule fires unconditionally with
strength 0. -/
theorem claim_C5_cx :
    spec_ruleConforms sysXY.inSet sysXY.outSet "zero" = false ∧
    fzz_parseRule sysXY.inSet sysXY.outSet "zero" = .ok ⟨[], 0, 0⟩ ∧
    fzz_ininference sysXY.inSet sysXY.outSet (fuzzifyAll sysXY.inSet sysXY.input) [[]]
      "zero" = .ok [[⟨0, 0⟩]] :=
  ⟨by decide, by decide, by decide⟩

/-- C5 amended: a wrong keyword at a keyword position is always a hard
parse failure: a first token other than `if`, or a token other than `is`
after a resolvable input name, makes `fzz_parseRule` return an error, so
such a rule is never accepted or partially applied; in particular
`if x iz negative then y is zero` is rejected.  (Not every nonconforming
text is rejected, see the counterexample.) -/
theorem claim_C5_amended (ins outs : List TFcnsSet)
    (v w rest : String) (vi : ℕ)
    (hvi : fzz_inputIndex ins v = some vi)
    (hvs : ∀ c ∈ v.data, c ≠ ' ')
    (hws : ∀ c ∈ w.data, c ≠ ' ')
    (hw : w ≠ "is")
    (w₀ rest₀ : String)
    (hw₀s : ∀ c ∈ w₀.data, c ≠ ' ')
    (hw₀ : w₀ ≠ "if") :
    fzz_parseRule ins outs ("if " ++ v ++ " " ++ w ++ " " ++ rest) =
      .error "expecting keyword is after input name" ∧
    fzz_parseRule ins outs (w₀ ++ " " ++ rest₀) =
      .error "expecting keyword if at the beginning of rule" := by
  constructor
  · have hdata : ("if " ++ v ++ " " ++ w ++ " " ++ rest).data =
        ['i', 'f'] ++ (' ' :: (v.data ++ (' ' :: (w.data ++ (' ' :: rest.data))))) := by
      simp [String.data_append]
    rw [fzz_parseRule, hdata, pInit]
    rw [parseRun_token ins outs ['i', 'f'] (by decide)]
    have hstep1 : fzz_pstep ins outs ⟨0, ([] : List Char) ++ ['i', 'f'], [], 0, 0⟩ ' ' =
        .ok ⟨1, [], [], 0, 0⟩ := rfl
    rw [parseRun_cons_ok ins outs ' ' _ _ _ hstep1]
    rw [parseRun_token ins outs v.data hvs]
    have hstep2 : fzz_pstep ins outs ⟨1, ([] : List Char) ++ v.data, [], 0, 0⟩ ' ' =
        .ok ⟨2, [], [], vi, 0⟩ := by
      have hm : fzz_pstep ins outs ⟨1, ([] : List Char) ++ v.data, [], 0, 0⟩ ' ' =
          match fzz_inputIndex ins (String.mk (([] : List Char) ++ v.data)) with
          | some vv => .ok ⟨2, [], [], vv, 0⟩
          | none => .error "input name not found" := rfl
      rw [hm, show String.mk (([] : List Char) ++ v.data) = v from by
        rw [List.nil_append], hvi]
    rw [parseRun_cons_ok ins outs ' ' _ _ _ hstep2]
    rw [parseRun_token ins outs w.data hws]
    have hstep3 : fzz_pstep ins outs ⟨2, ([] : List Char) ++ w.data, [], vi, 0⟩ ' ' =
        .error "expecting keyword is after input name" := by
      have hm : fzz_pstep ins outs ⟨2, ([] : List Char) ++ w.data, [], vi, 0⟩ ' ' =
          if String.mk (([] : List Char) ++ w.data) = "is" then .ok ⟨3, [], [], vi, 0⟩
          else .error "expecting keyword is after input name" := rfl
      rw [hm, if_neg (show ¬(String.mk (([] : List Char) ++ w.data) = "is") from by
        rw [List.nil_append]; exact fun h => hw h)]
    rw [parseRun_cons_error ins outs ' ' _ _ _ hstep3]
  · have hdata : (w₀ ++ " " ++ rest₀).data = w₀.data ++ (' ' :: rest₀.data) := by
      simp [String.data_append]
    rw [fzz_parseRule, hdata, pInit]
    rw [parseRun_token ins outs w₀.data hw₀s]
    have hstep1 : fzz_pstep ins outs ⟨0, ([] : List Char) ++ w₀.data, [], 0, 0⟩ ' ' =
        .error "expecting keyword if at the beginning of rule" := by
      have hm : fzz_pstep ins outs ⟨0, ([] : List Char) ++ w₀.data, [], 0, 0⟩ ' ' =
          if String.mk (([] : List Char) ++ w₀.data) = "if" then .ok ⟨1, [], [], 0, 0⟩
          else .error "expecting keyword if at the beginning of rule" := rfl
      rw [hm, if_neg (show ¬(String.mk (([] : List Char) ++ w₀.data) = "if") from by
        rw [List.nil_append]; exact fun h => hw₀ h)]
    rw [parseRun_cons_error ins outs ' ' _ _ _ hstep1]

theorem claim_C5_amended_wit :
    fzz_parseRule sysXY.inSet sysXY.outSet
      ("if " ++ "x" ++ " " ++ "iz" ++ " " ++ "negative then y is zero") =
      .error "expecting keyword is after input name" ∧
    fzz_parseRule sysXY.inSet sysXY.outSet ("zerp" ++ " " ++ "rest") =
      .error "expecting keyword if at the beginning of rule" :=
  ⟨(claim_C5_amended sysXY.inSet sysXY.outSet "x" "iz" "negative then y is zero" 0
      (by decide) (by decide) (by decide) (by decide) "zerp" "rest"
      (by decide) (by decide)).1,
   (claim_C5_amended sysXY.inSet sysXY.outSet "x" "iz" "negative then y is zero" 0
      (by decide) (by decide) (by decide) (by decide) "zerp" "rest"
      (by decide) (by decide)).2⟩

theorem claim_C3_wit :
    fzz_defuzzify ovW [⟨1, 0⟩] =
      (((List.range (fzz_cogN (fzz_cogFrom ovW [⟨1, 0⟩]) (fzz_cogTo ovW [⟨1, 0⟩]))).map
          fun k : ℕ =>
          (fzz_cogFrom ovW [⟨1, 0⟩] + (k : ℚ) * COG_STEP) *
            spec_outputValue ovW [⟨1, 0⟩] (fzz_cogFrom ovW [⟨1, 0⟩] + (k : ℚ) * COG_STEP)).sum) /
      (((List.range (fzz_cogN (fzz_cogFrom ovW [⟨1, 0⟩]) (fzz_cogTo ovW [⟨1, 0⟩]))).map
          fun k : ℕ =>
          spec_outputValue ovW [⟨1, 0⟩] (fzz_cogFrom ovW [⟨1, 0⟩] + (k : ℚ) * COG_STEP)).sum) ∧
    (fzz_cogFrom ovW [⟨1, 0⟩] ∈ [⟨(1 : ℚ), 0⟩].map fun r : TInfRes =>
      (ovW.fSet.getD r.fSet default).left) :=
  ⟨(claim_C3 ovW [⟨1, 0⟩] (by decide) (by decide) (by decide) (by decide) (by decide)
      (by decide)).2.2.2.2.2.1,
   (claim_C3 ovW [⟨1, 0⟩] (by decide) (by decide) (by decide) (by decide) (by decide)
      (by decide)).1⟩

